import Mathlib

/-!
Verification development for the Lexicologia text search and export module
(`src/services/lexicologia.ts`).

The TypeScript module is shallowly embedded here.  JavaScript strings are
modelled as `List Char` (`Str`); all JS string primitives used by the module
(`trim`, `toLowerCase`, `includes`, `split` by string or by the two concrete
regular expressions the module uses, `padStart`, `replace` of a character
class) are given explicit executable models.  Scans that consume more than
one character per step are written with an explicit fuel argument (fuel is
always instantiated with the input length, which is proved or arranged to be
sufficient), so every definition is a computable structural recursion that
the kernel can evaluate on concrete inputs.

Modelling notes, used consistently throughout:
* `toLowerCase` is modelled by `Char.toLower` applied characterwise (exact
  for ASCII, which is all the concrete inputs below use).
* the regular-expression dot `.` excludes line terminators, as in
  ECMAScript without the `s` flag.
* `new RegExp(p, flags)` applied to a raw user term is modelled by
  `jsMatchCountG`: construction fails exactly when the scanner
  `jsPatternValid` rejects the pattern (this scanner models ECMAScript
  pattern well-formedness in non-unicode mode: group balance, character
  class termination, dangling escapes, and quantifiers with nothing to
  repeat); a pattern with no syntax characters matches as the literal
  string; in addition the fragment whose only syntax character is `.` is
  modelled exactly (fixed-width window matching).  Other valid patterns are
  counted by the same window matcher, which is not ECMAScript-exact there;
  no theorem below depends on the count of such a pattern.
* the `docx` document-object construction in `exportToDocx` is modelled up
  to the pure `children` list (title, date line, per-file headers, and one
  run-list per found paragraph); the actual file I/O performed by `Packer`
  and `saveAs` is outside the embedding, and the generated date string is a
  parameter.
* the write-only debug payload threaded through `processFoundParagraph` and
  `searchInFiles` influences no result field and is not modelled.
-/

set_option maxRecDepth 20000

abbrev Str := List Char

/-- The backtick character (code point 96), written via `Char.ofNat`. -/
def btk : Char := Char.ofNat 96

/-- Characters matched by the ECMAScript `\s` class (the subset relevant to
the module's inputs: ASCII whitespace, NBSP, BOM, and the two Unicode line
separators). -/
def isWsRe (c : Char) : Bool :=
  c = ' ' ∨ c = '\t' ∨ c = '\n' ∨ c = Char.ofNat 11 ∨ c = Char.ofNat 12 ∨
  c = '\r' ∨ c = Char.ofNat 160 ∨ c = Char.ofNat 65279 ∨
  c = Char.ofNat 8232 ∨ c = Char.ofNat 8233

/-- Model of `String.prototype.trim`. -/
def jsTrim (s : Str) : Str :=
  ((s.dropWhile isWsRe).reverse.dropWhile isWsRe).reverse

/-- Model of `String.prototype.toLowerCase` (characterwise; exact on ASCII). -/
def toLowerStr (s : Str) : Str := s.map Char.toLower

/-- Model of `haystack.includes(needle)`: `strIncludes needle haystack`. -/
def strIncludes (sub : Str) : Str → Bool
  | [] => sub.isEmpty
  | c :: rest => sub.isPrefixOf (c :: rest) || strIncludes sub rest

/-- Tail-recursive length with a forced (always literal) accumulator, so
that the kernel can evaluate it iteratively on long lists. -/
def lenGo {α : Type} : Nat → List α → Nat
  | n, [] => n
  | 0, _ :: rest => lenGo 1 rest
  | n + 1, _ :: rest => lenGo (n + 2) rest

/-- Iterative list length, equal to `List.length`. -/
def lenT {α : Type} (l : List α) : Nat := lenGo 0 l

/-- Iterative test for `n ≤ l.length` that does not force the full length. -/
def hasAtLeast {α : Type} : Nat → List α → Bool
  | 0, _ => true
  | _ + 1, [] => false
  | n + 1, _ :: rest => hasAtLeast n rest

/-- Tail-recursive filter (kernel-iterative), equal to `List.filter`. -/
def filterGo {α : Type} (p : α → Bool) : List α → List α → List α
  | acc, [] => acc.reverse
  | acc, x :: rest =>
    if p x then filterGo p (x :: acc) rest else filterGo p acc rest

/-- Iterative filter. -/
def filterT {α : Type} (p : α → Bool) (l : List α) : List α := filterGo p [] l

/-- The scan of `String.prototype.split(sep)` for a non-empty literal
separator, tail-recursive: first argument is a fuel list (instantiated with
the input itself; the scanned input never outlives it because each step
consumes at least one scanned character and exactly one fuel entry), then
the current piece in reverse, the scanned remainder, and the pieces
accumulated in reverse. -/
def splitOnSubGo (sep : Str) : Str → Str → Str → List Str → List Str
  | _, cur, [], acc => (cur.reverse :: acc).reverse
  | [], cur, s, acc => ((cur.reverse ++ s) :: acc).reverse
  | _ :: fuel, cur, c :: rest, acc =>
    if sep.isPrefixOf (c :: rest) then
      splitOnSubGo sep fuel [] ((c :: rest).drop sep.length) (cur.reverse :: acc)
    else splitOnSubGo sep fuel (c :: cur) rest acc

/-- Model of `String.prototype.split(sep)` for a non-empty literal separator
(used by the module with `'\n'`, `'\n\n'` and `'|'`). -/
def splitOnSub (sep : Str) (s : Str) : List Str := splitOnSubGo sep s [] s []

/-- Line terminators, which the ECMAScript dot does not match. -/
def notLineTerm (c : Char) : Bool :=
  ¬ (c = '\n' ∨ c = '\r' ∨ c = Char.ofNat 8232 ∨ c = Char.ofNat 8233)

/-- Leftmost match of the regular expression `\n\s*\n` at the head of the
input (greedy `\s*` with backtracking: the match extends to the last newline
of the whitespace run).  Returns the remainder after the match. -/
def blankSepMatch : Str → Option Str
  | '\n' :: rest =>
    let run := rest.takeWhile isWsRe
    let keep := run.reverse.dropWhile (fun c => ¬ (c = '\n'))
    if keep.length = 0 then none else some (rest.drop keep.length)
  | _ => none

/-- The scan of `String.prototype.split(/\n\s*\n/)`, tail-recursive with a
fuel list as in `splitOnSubGo` (each step consumes at least one scanned
character, a separator match at least two). -/
def splitBlankGo : Str → Str → Str → List Str → List Str
  | _, cur, [], acc => (cur.reverse :: acc).reverse
  | [], cur, s, acc => ((cur.reverse ++ s) :: acc).reverse
  | _ :: fuel, cur, c :: rest, acc =>
    match blankSepMatch (c :: rest) with
    | some rem => splitBlankGo fuel [] rem (cur.reverse :: acc)
    | none => splitBlankGo fuel (c :: cur) rest acc

/-- Model of `String.prototype.split(/\n\s*\n/)`. -/
def splitBlankSep (s : Str) : List Str := splitBlankGo s [] s []

/-- The scan of the line-ending normalisation, tail-recursive. -/
def normalizeNewlinesGo : Str → Str → Str
  | acc, [] => acc.reverse
  | acc, '\r' :: '\n' :: rest => normalizeNewlinesGo ('\n' :: acc) rest
  | acc, '\r' :: rest => normalizeNewlinesGo ('\n' :: acc) rest
  | acc, c :: rest => normalizeNewlinesGo (c :: acc) rest

/-- Normalisation of line endings, `text.replace(/\r\n/g,'\n').replace(/\r/g,'\n')`
fused into one left-to-right scan (the two global replacements are
equivalent to it because replacements are never re-scanned). -/
def normalizeNewlines (s : Str) : Str := normalizeNewlinesGo [] s

/-- Filter of splitting method (a), single newline: `trimmed.length > 0 &&
trimmed.length >= 3` (length comparisons via the iterative `hasAtLeast`). -/
def keepLineA (p : Str) : Bool :=
  hasAtLeast 1 (jsTrim p) && hasAtLeast 3 (jsTrim p)

/-- Test for `/^#+\s*$/` on an input (one or more hashes then whitespace). -/
def reHashOnly (t : Str) : Bool :=
  match t with
  | '#' :: _ => (t.dropWhile (fun c => c = '#')).all isWsRe
  | _ => false

/-- Test for `/^[-*+]\s*$/`. -/
def reBulletOnly (t : Str) : Bool :=
  match t with
  | c :: rest => (c = '-' ∨ c = '*' ∨ c = '+') && rest.all isWsRe
  | [] => false

/-- Test for `/^\s*$/`. -/
def reWsOnly (t : Str) : Bool := t.all isWsRe

/-- Test for a code-fence-only line, three backticks then whitespace. -/
def reFenceOnly (t : Str) : Bool :=
  [btk, btk, btk].isPrefixOf t && (t.drop 3).all isWsRe

/-- Test for `/^---+\s*$/` (three or more hyphens then whitespace; the
hyphen count is the length of the leading hyphen run). -/
def reHrOnly (t : Str) : Bool :=
  hasAtLeast 3 (t.takeWhile (fun c => c = '-')) &&
    (t.dropWhile (fun c => c = '-')).all isWsRe

/-- Filter of splitting method (c), meaningful lines: trimmed length above 10
and not a markdown noise line. -/
def keepLineC (p : Str) : Bool :=
  let t := jsTrim p
  hasAtLeast 11 t && !reHashOnly t && !reBulletOnly t && !reWsOnly t &&
    !reFenceOnly t && !reHrOnly t

/-- The non-blank-trim filter shared by methods (b) and (d): `p.trim().length > 0`. -/
def keepNonBlank (p : Str) : Bool := hasAtLeast 1 (jsTrim p)

/-- Splitting method (a): single newline, lines of trimmed length at least 3. -/
def methodA (t : Str) : List Str := filterT keepLineA (splitOnSub ['\n'] t)

/-- Splitting method (b): double newline, pieces with non-blank trim. -/
def methodB (t : Str) : List Str :=
  filterT keepNonBlank (splitOnSub ['\n', '\n'] t)

/-- Splitting method (c): meaningful lines. -/
def methodC (t : Str) : List Str := filterT keepLineC (splitOnSub ['\n'] t)

/-- Splitting method (d): blank-line-separated blocks with non-blank trim. -/
def methodD (t : Str) : List Str := filterT keepNonBlank (splitBlankSep t)

/-- The candidate count selected by a method index (0 = a, 1 = b, 2 = c, 3 = d). -/
def countAt (aN bN cN dN : Nat) : Nat → Nat
  | 0 => aN
  | 1 => bN
  | 2 => cN
  | 3 => dN
  | _ => aN

/-- Initial method choice of `splitTextIntoParagraphs` (lines 129–144 of the
source).  The float comparison `cN < aN * 0.8` is rendered as the exact
`5 * cN < 4 * aN`, which agrees with IEEE double arithmetic at every integer
count. -/
def chooseInitIdx (aN bN cN dN : Nat) : Nat :=
  if 5 < cN ∧ 5 * cN < 4 * aN then 2
  else if bN < aN ∧ 3 < aN then 0
  else if 3 < bN then 1
  else if bN < dN then 3
  else 0

/-- The two sequential safety overrides (lines 146–159 of the source),
applied to an already-chosen index.  `1/5` and `1/3` float divisions are
rendered exactly. -/
def codeOverrides (aN bN cN dN normLen i0 : Nat) : Nat :=
  let k0 := countAt aN bN cN dN i0
  let i1 :=
    if 500 < k0 then
      if 0 < bN ∧ 5 * bN < k0 then 1
      else if 0 < cN ∧ 3 * cN < k0 then 2
      else i0
    else i0
  let k1 := countAt aN bN cN dN i1
  if k1 < 5 ∧ 1000 < normLen then
    if k1 * 2 < aN then 0 else i1
  else i1

/-- Full method choice including the two safety overrides. -/
def chooseFinalIdx (aN bN cN dN normLen : Nat) : Nat :=
  codeOverrides aN bN cN dN normLen (chooseInitIdx aN bN cN dN)

/-- Result of `splitTextIntoParagraphs`: the paragraphs of the chosen
method, the chosen method index (0 = single newline, 1 = double newline,
2 = meaningful lines, 3 = paragraph blocks; determines the
`splitInfo.chosenMethod` name string of the source), and the normalized
text length recorded in the split info. -/
structure SplitResult where
  paragraphs : List Str
  chosenIdx : Nat
  normalizedLength : Nat
  deriving Repr, DecidableEq

/-- The result list of a method index on a normalized text. -/
def methodResult (t : Str) : Nat → List Str
  | 0 => methodA t
  | 1 => methodB t
  | 2 => methodC t
  | 3 => methodD t
  | _ => methodA t

/-- Embedding of `splitTextIntoParagraphs` (source lines 71–167).  All the
choice logic compares the four candidate counts, so the embedding factors
through `chooseFinalIdx`. -/
def splitTextIntoParagraphs (text : Str) : SplitResult :=
  let t := normalizeNewlines text
  let i := chooseFinalIdx (lenT (methodA t)) (lenT (methodB t))
      (lenT (methodC t)) (lenT (methodD t)) (lenT t)
  ⟨methodResult t i, i, lenT t⟩

/-- Concatenation of a list of strings. -/
def catList : List Str → Str
  | [] => []
  | s :: rest => s ++ catList rest

/-- Join with a single space, `parts.join(' ')`. -/
def joinSp : List Str → Str
  | [] => []
  | [s] => s
  | s :: rest => s ++ ' ' :: joinSp rest

/-- Embedding of `processFoundParagraph` (source lines 174–220); only the
`processed` component is modelled (the second component of the source's
return value is a write-only debug record). -/
def processFoundParagraph (paragraph searchTerm : Str) : Str :=
  let pt := toLowerStr (jsTrim searchTerm)
  if strIncludes ['|'] paragraph ∧ 3 ≤ (splitOnSub ['|'] paragraph).length then
    match (splitOnSub ['|'] paragraph).map jsTrim with
    | [] => paragraph
    | s0 :: rest =>
      joinSp (s0 :: rest.filter (fun s => strIncludes pt (toLowerStr s)))
  else paragraph

/-- The character set escaped by the module's own escaping site
(`/[.*+?^${}()|[\]\\]/`, source line 395): the ECMAScript pattern syntax
characters. -/
def regexMetaChars : Str :=
  ['.', '*', '+', '?', '^', '$', Char.ofNat 123, Char.ofNat 125,
   '(', ')', '|', '[', ']', '\\']

/-- Whether a character is an ECMAScript pattern syntax character. -/
def isRegexMeta (c : Char) : Bool := regexMetaChars.contains c

/-- Scanner deciding whether `new RegExp(p)` succeeds, modelling ECMAScript
pattern well-formedness in non-unicode (Annex B lenient) mode.  The first
argument is the in-character-class flag, then the remaining pattern, the
number of open groups, and whether a quantifiable atom precedes.  Rejects
exactly: unbalanced groups, an unterminated character class, a dangling
escape, a quantifier with nothing to repeat, and a malformed `(?`.  Braced
quantifiers are treated as literal characters (lenient mode). -/
def patScan : Nat → Bool → Str → Nat → Bool → Bool
  | 0, true, _, _, _ => false
  | 0, false, _, d, _ => decide (d = 0)
  | _ + 1, true, [], _, _ => false
  | fuel + 1, true, c :: rest, d, h =>
    if c = '\\' then
      (match rest with
       | [] => false
       | _ :: r => patScan fuel true r d h)
    else if c = ']' then patScan fuel false rest d true
    else patScan fuel true rest d h
  | _ + 1, false, [], d, _ => decide (d = 0)
  | fuel + 1, false, c :: rest, d, h =>
    if c = '\\' then
      (match rest with
       | [] => false
       | _ :: r => patScan fuel false r d true)
    else if c = '(' then
      (match rest with
       | '?' :: ':' :: r => patScan fuel false r (d + 1) false
       | '?' :: '=' :: r => patScan fuel false r (d + 1) false
       | '?' :: '!' :: r => patScan fuel false r (d + 1) false
       | '?' :: '<' :: r => patScan fuel false r (d + 1) false
       | '?' :: _ => false
       | _ => patScan fuel false rest (d + 1) false)
    else if c = ')' then
      (match d with
       | 0 => false
       | d' + 1 => patScan fuel false rest d' true)
    else if c = '[' then patScan fuel true rest d false
    else if c = '|' then patScan fuel false rest d false
    else if c = '*' ∨ c = '+' ∨ c = '?' then
      (if h then
        match rest with
        | '?' :: r => patScan fuel false r d false
        | _ => patScan fuel false rest d false
       else false)
    else patScan fuel false rest d true

/-- Whether `new RegExp(p, 'g')` construction succeeds on pattern `p`.  The
fuel, one per character consumed, is instantiated with the pattern length. -/
def jsPatternValid (p : Str) : Bool := patScan p.length false p 0 true

/-- Whether one pattern character matches one text character (`.` matches
any character other than a line terminator). -/
def patCharMatches (p c : Char) : Bool :=
  if p = '.' then notLineTerm c else p = c

/-- Whether the pattern matches at the head of the text (fixed-width window:
exact for patterns whose only syntax character is `.`). -/
def patMatchesAt : Str → Str → Bool
  | [], _ => true
  | _ :: _, [] => false
  | p :: ps, c :: cs => patCharMatches p c && patMatchesAt ps cs

/-- Global non-overlapping leftmost match count of a window pattern, with
fuel (instantiated with the text length; each step consumes a character). -/
def countPatFuel (pat : Str) : Nat → Str → Nat
  | 0, _ => 0
  | _ + 1, [] => 0
  | fuel + 1, c :: rest =>
    if patMatchesAt pat (c :: rest) then
      1 + countPatFuel pat fuel ((c :: rest).drop pat.length)
    else countPatFuel pat fuel rest

instance {e a : Type} [DecidableEq e] [DecidableEq a] : DecidableEq (Except e a) := fun x y =>
  match x, y with
  | .error u, .error v =>
    if h : u = v then .isTrue (congrArg Except.error h)
    else .isFalse (fun hc => h (Except.error.inj hc))
  | .ok u, .ok v =>
    if h : u = v then .isTrue (congrArg Except.ok h)
    else .isFalse (fun hc => h (Except.ok.inj hc))
  | .error _, .ok _ => .isFalse (fun hc => Except.noConfusion hc)
  | .ok _, .error _ => .isFalse (fun hc => Except.noConfusion hc)

/-- Model of `(text.match(new RegExp(p, 'g')) || []).length` on a raw term
`p`: errors exactly when construction fails; an empty pattern matches at
every position; otherwise counts window matches (ECMAScript-exact whenever
`p`'s only syntax character is `.`, in particular for metacharacter-free
terms). -/
def jsMatchCountG (p text : Str) : Except Unit Nat :=
  if jsPatternValid p then
    .ok (if p.isEmpty then text.length + 1 else countPatFuel p text.length text)
  else .error ()

/-- Specification-side counter: non-overlapping leftmost occurrences of a
literal non-empty string, with fuel. -/
def countOccFuel (pat : Str) : Nat → Str → Nat
  | 0, _ => 0
  | _ + 1, [] => 0
  | fuel + 1, c :: rest =>
    if pat.isPrefixOf (c :: rest) then
      1 + countOccFuel pat fuel ((c :: rest).drop pat.length)
    else countOccFuel pat fuel rest

/-- Non-overlapping leftmost occurrence count of `pat` in `t`. -/
def countOcc (pat t : Str) : Nat := countOccFuel pat t.length t

/-- Embedding of `FileData` (size and mime type carried but unused by the
search logic). -/
structure FileData where
  id : Str
  name : Str
  content : Str
  size : Nat
  ftype : Str
  deriving Repr, DecidableEq

/-- Embedding of `SearchResult`. -/
structure SearchResult where
  fileName : Str
  foundParagraphs : List Str
  totalParagraphs : Nat
  occurrenceCount : Nat
  deriving Repr, DecidableEq

/-- The per-file paragraph loop of `searchInFiles` (source lines 247–268):
returns the processed found paragraphs and the occurrence count, or the
thrown error of the unescaped `new RegExp` construction. -/
def fileSearch (pt st : Str) : List Str → Except Unit (List Str × Nat)
  | [] => .ok ([], 0)
  | p :: ps =>
    if strIncludes pt (toLowerStr p) then
      match jsMatchCountG pt (toLowerStr p) with
      | .error e => .error e
      | .ok n =>
        match fileSearch pt st ps with
        | .error e => .error e
        | .ok (found, cnt) => .ok (processFoundParagraph p st :: found, n + cnt)
    else fileSearch pt st ps

/-- The file loop of `searchInFiles` over the selected ids. -/
def searchGo (files : List FileData) (pt st : Str) :
    List Str → Except Unit (List SearchResult)
  | [] => .ok []
  | id :: rest =>
    match files.find? (fun f => f.id == id) with
    | none => searchGo files pt st rest
    | some file =>
      let sp := splitTextIntoParagraphs file.content
      match fileSearch pt st sp.paragraphs with
      | .error e => .error e
      | .ok (found, cnt) =>
        match searchGo files pt st rest with
        | .error e => .error e
        | .ok rs =>
          .ok (if found.isEmpty then rs
               else ⟨file.name, found, sp.paragraphs.length, cnt⟩ :: rs)

/-- Embedding of `searchInFiles` (source lines 225–282).  The result is
`Except` because the per-paragraph `new RegExp(processedTerm, 'g')` is built
from the unescaped term and its construction can throw. -/
def searchInFiles (files : List FileData) (selectedFileIds : List Str)
    (searchTerm : Str) : Except Unit (List SearchResult) :=
  if (jsTrim searchTerm).isEmpty ∨ selectedFileIds.isEmpty then .ok []
  else searchGo files (toLowerStr (jsTrim searchTerm)) searchTerm selectedFileIds

/-- Embedding of `ParsedMarkdownSegment` (source lines 293–300). -/
structure ParsedMarkdownSegment where
  text : Str
  isBold : Bool
  isItalic : Bool
  isCode : Bool
  isStrikethrough : Bool
  isHighlighted : Bool
  deriving Repr, DecidableEq

/-- A plain unstyled, unhighlighted segment. -/
def plainSeg (t : Str) : ParsedMarkdownSegment :=
  ⟨t, false, false, false, false, false⟩

/-- Lazy closing search for `dd.*?dd` after the opening pair: the shortest
way to extend a dot-run (no line terminators) to a closing double delimiter.
Returns the enclosed content and the remainder after the closing pair. -/
def findClose2 (d : Char) : Str → Option (Str × Str)
  | c1 :: c2 :: rest =>
    if c1 = d ∧ c2 = d then some ([], rest)
    else if notLineTerm c1 then
      match findClose2 d (c2 :: rest) with
      | some (content, after) => some (c1 :: content, after)
      | none => none
    else none
  | _ => none

/-- Lazy closing search for `d.*?d` after the opening delimiter. -/
def findClose1 (d : Char) : Str → Option (Str × Str)
  | c :: rest =>
    if c = d then some ([], rest)
    else if notLineTerm c then
      match findClose1 d rest with
      | some (content, after) => some (c :: content, after)
      | none => none
    else none
  | [] => none

/-- The bold alternative `\*\*.*?\*\*` of the markdown regex at the head
of the input. -/
def mdBoldAt (cs : Str) : Option (Str × Str) :=
  match cs with
  | c1 :: c2 :: rest2 =>
    if c1 = '*' ∧ c2 = '*' then
      (findClose2 '*' rest2).map
        (fun p => ('*' :: '*' :: (p.1 ++ ['*', '*']), p.2))
    else none
  | _ => none

/-- The italic alternative `\*.*?\*` at the head of the input. -/
def mdItalAt (cs : Str) : Option (Str × Str) :=
  match cs with
  | c :: rest =>
    if c = '*' then
      (findClose1 '*' rest).map (fun p => ('*' :: (p.1 ++ ['*']), p.2))
    else none
  | [] => none

/-- The inline-code alternative (backtick pair) at the head of the input. -/
def mdCodeAt (cs : Str) : Option (Str × Str) :=
  match cs with
  | c :: rest =>
    if c = btk then
      (findClose1 btk rest).map (fun p => (btk :: (p.1 ++ [btk]), p.2))
    else none
  | [] => none

/-- The strikethrough alternative `~~.*?~~` at the head of the input. -/
def mdStrikeAt (cs : Str) : Option (Str × Str) :=
  match cs with
  | c1 :: c2 :: rest2 =>
    if c1 = '~' ∧ c2 = '~' then
      (findClose2 '~' rest2).map
        (fun p => ('~' :: '~' :: (p.1 ++ ['~', '~']), p.2))
    else none
  | _ => none

/-- Leftmost-alternative match of the module's markdown regex
`(\*\*.*?\*\*|\*.*?\*|` + backtick pair + `|~~.*?~~)` at the head of the
input: ECMAScript tries the four alternatives in order at each position.
Returns the full matched text (delimiters included) and the remainder. -/
def matchMarkdownAt (cs : Str) : Option (Str × Str) :=
  mdBoldAt cs <|> mdItalAt cs <|> mdCodeAt cs <|> mdStrikeAt cs

/-- Classification of a matched text (source lines 330–350): the JS code
re-derives the style from `startsWith`/`endsWith` tests on the match and
strips the delimiters with `slice`. -/
def classifySegment (m : Str) : ParsedMarkdownSegment :=
  if ['*', '*'].isPrefixOf m ∧ ['*', '*'].isSuffixOf m then
    ⟨(m.drop 2).take (m.length - 4), true, false, false, false, false⟩
  else if ['*'].isPrefixOf m ∧ ['*'].isSuffixOf m then
    ⟨(m.drop 1).take (m.length - 2), false, true, false, false, false⟩
  else if [btk].isPrefixOf m ∧ [btk].isSuffixOf m then
    ⟨(m.drop 1).take (m.length - 2), false, false, true, false, false⟩
  else if ['~', '~'].isPrefixOf m ∧ ['~', '~'].isSuffixOf m then
    ⟨(m.drop 2).take (m.length - 4), false, false, false, true, false⟩
  else ⟨m, false, false, false, false, false⟩

/-- Push a pending plain-text gap as a segment if it is non-empty (the JS
loop only pushes non-empty gap text). -/
def consPlain (t : Str) (rest : List ParsedMarkdownSegment) :
    List ParsedMarkdownSegment :=
  if t.isEmpty then rest else plainSeg t :: rest

/-- The `markdownRegex.exec` loop of `splitByMarkdown` (source lines
311–377), with fuel and the pending plain gap accumulated in reverse.  Fuel
is instantiated with length + 1, which is sufficient (a match consumes at
least two characters, otherwise one character advances), so the fuel-0
fallback is unreachable; it is defined to preserve the text anyway. -/
def scanMDFuel : Nat → Str → Str → List ParsedMarkdownSegment
  | 0, acc, cs => [plainSeg (acc.reverse ++ cs)]
  | _ + 1, acc, [] => if acc.isEmpty then [] else [plainSeg acc.reverse]
  | fuel + 1, acc, c :: rest =>
    match matchMarkdownAt (c :: rest) with
    | some (m, after) =>
      consPlain acc.reverse (classifySegment m :: scanMDFuel fuel [] after)
    | none => scanMDFuel fuel (c :: acc) rest

/-- Embedding of `splitByMarkdown` (source lines 305–380). -/
def splitByMarkdown (s : Str) : List ParsedMarkdownSegment :=
  scanMDFuel (s.length + 1) [] s

/-- The number of delimiter characters stripped by the recognized matches of
the markdown scan: the same scan, summing matched length minus emitted
length per match. -/
def strippedFuel : Nat → Str → Nat
  | 0, _ => 0
  | _ + 1, [] => 0
  | fuel + 1, c :: rest =>
    match matchMarkdownAt (c :: rest) with
    | some (m, after) =>
      (m.length - (classifySegment m).text.length) + strippedFuel fuel after
    | none => strippedFuel fuel rest

/-- Total count of delimiter markers stripped from recognized matched pairs. -/
def strippedLen (s : Str) : Nat := strippedFuel (s.length + 1) s

/-- The split of `applyHighlightToSegments` (source line 396): the segment
text is split by a capture-group regex built from the escaped lowercased
term with flags `gi`, so separators — the case-insensitive literal
occurrences of the term — are kept in the output.  Fuel is instantiated
with the text length; the fuel-0 fallback emits the remainder, keeping the
scan text-preserving for every fuel. -/
def splitKeepFuel (term : Str) : Nat → Str → Str → List Str
  | 0, gap, cs => [gap.reverse ++ cs]
  | _ + 1, gap, [] => [gap.reverse]
  | fuel + 1, gap, c :: rest =>
    if term.isPrefixOf (toLowerStr (c :: rest)) then
      gap.reverse :: (c :: rest).take term.length
        :: splitKeepFuel term fuel [] ((c :: rest).drop term.length)
    else splitKeepFuel term fuel (c :: gap) rest

/-- Model of `text.split(new RegExp('(' + escaped term + ')', 'gi'))` for a
non-empty lowercased term. -/
def splitKeepTermCI (term text : Str) : List Str :=
  splitKeepFuel term text.length [] text

/-- Embedding of the per-segment body of `applyHighlightToSegments` (source
lines 391–411): non-empty parts become sub-segments inheriting the style
flags, highlighted exactly when the part lowercases to the term. -/
def applyHLGo (pt : Str) : List ParsedMarkdownSegment → List ParsedMarkdownSegment
  | [] => []
  | seg :: rest =>
    (if strIncludes pt (toLowerStr seg.text) then
      ((splitKeepTermCI pt seg.text).filter (fun part => ¬ part.isEmpty)).map
        (fun part => { seg with text := part, isHighlighted := toLowerStr part == pt })
     else [seg]) ++ applyHLGo pt rest

/-- Embedding of `applyHighlightToSegments` (source lines 385–414). -/
def applyHighlightToSegments (segments : List ParsedMarkdownSegment)
    (searchTerm : Str) : List ParsedMarkdownSegment :=
  if (jsTrim searchTerm).isEmpty then segments
  else applyHLGo (toLowerStr (jsTrim searchTerm)) segments

/-- Embedding of `getFormattedTextSegments` (source lines 419–422). -/
def getFormattedTextSegments (text searchTerm : Str) : List ParsedMarkdownSegment :=
  applyHighlightToSegments (splitByMarkdown text) searchTerm

/-- Concatenation of the text fields of a segment list. -/
def catTexts (l : List ParsedMarkdownSegment) : Str := catList (l.map (·.text))

/-- A `TextRun` of the docx export: the option bag passed to the `TextRun`
constructor (source lines 481–496).  `highlightYellow` models the
`highlight: 'yellow'` versus `undefined` choice and `courierFont` the
`font: 'Courier New'` versus `undefined` choice. -/
structure DocxRun where
  text : Str
  bold : Bool
  italics : Bool
  strike : Bool
  highlightYellow : Bool
  courierFont : Bool
  deriving Repr, DecidableEq

/-- A child of the docx document body: either a plain-text paragraph or a
paragraph given by text runs. -/
inductive DocxChild where
  | plain (text : Str)
  | runs (rs : List DocxRun)
  deriving Repr, DecidableEq

/-- Decimal digit string of a number, `n.toString()`. -/
def natDigits (n : Nat) : Str := (toString n).data

/-- Model of `s.padStart(2, '0')`. -/
def padStart2 (s : Str) : Str := List.replicate (2 - s.length) '0' ++ s

/-- The sequence-number label of the n-th exported paragraph,
`paragraphCounter.toString().padStart(2, '0') + '. '` (source line 475). -/
def seqLabel (n : Nat) : Str := padStart2 (natDigits n) ++ ['.', ' ']

/-- The `TextRun` built from a formatted segment (source lines 489–496). -/
def segToRun (s : ParsedMarkdownSegment) : DocxRun :=
  ⟨s.text, s.isBold, s.isItalic, s.isStrikethrough, s.isHighlighted, s.isCode⟩

/-- The runs paragraph exported for one found paragraph: the bold
sequence-number run followed by the highlighted segments' runs (source
lines 472–504). -/
def paraChild (counter : Nat) (p term : Str) : DocxChild :=
  .runs (⟨seqLabel counter, true, false, false, false, false⟩
    :: (getFormattedTextSegments p term).map segToRun)

/-- The paragraph loop of one result, threading the global counter (the
source increments `paragraphCounter` before rendering, so the first
paragraph gets counter + 1). -/
def parasChildren (term : Str) : Nat → List Str → List DocxChild
  | _, [] => []
  | c, p :: ps => paraChild (c + 1) p term :: parasChildren term (c + 1) ps

/-- The file header line `File: ...` of a result. -/
def fileHeaderText (r : SearchResult) : Str := "File: ".data ++ r.fileName

/-- The summary line `Found N paragraphs with M occurrences` of a result. -/
def foundLineText (r : SearchResult) : Str :=
  "Found ".data ++ natDigits r.foundParagraphs.length
    ++ " paragraphs with ".data ++ natDigits r.occurrenceCount
    ++ " occurrences".data

/-- The result loop of `exportToDocx` (source lines 459–506), threading the
global paragraph counter across results. -/
def resultsChildren (term : Str) : Nat → List SearchResult → List DocxChild
  | _, [] => []
  | c, r :: rs =>
    .plain (fileHeaderText r) :: .plain (foundLineText r)
      :: (parasChildren term c r.foundParagraphs
          ++ resultsChildren term (c + r.foundParagraphs.length) rs)

/-- The document title text. -/
def exportTitleText (term : Str) : Str :=
  "Search Results for \"".data ++ term ++ "\"".data

/-- The pure `children` list built by `exportToDocx` (source lines 446–522):
title, date line (the date string is a runtime input, here a parameter),
per-result children, and the final border paragraph. -/
def exportChildren (results : List SearchResult) (term dateStr : Str) :
    List DocxChild :=
  .plain (exportTitleText term) :: .plain ("Generated on: ".data ++ dateStr)
    :: (resultsChildren term 0 results ++ [.plain []])

/-- The first-run texts of the runs paragraphs of a children list, in order:
the sequence-number labels actually attached. -/
def childSeqLabels : List DocxChild → List Str
  | [] => []
  | .plain _ :: rest => childSeqLabels rest
  | .runs [] :: rest => childSeqLabels rest
  | .runs (r0 :: _) :: rest => r0.text :: childSeqLabels rest

/-- Whether every runs paragraph of a children list starts with a bold run. -/
def childHeadsBold : List DocxChild → Bool
  | [] => true
  | .plain _ :: rest => childHeadsBold rest
  | .runs [] :: rest => childHeadsBold rest
  | .runs (r0 :: _) :: rest => r0.bold && childHeadsBold rest

/-- Total number of found paragraphs across a result list. -/
def totalParas (results : List SearchResult) : Nat :=
  (results.map (fun r => r.foundParagraphs.length)).sum

/-- Whether a character is in `[A-Za-z0-9]`. -/
def isAlnumChar (c : Char) : Bool :=
  ('a' ≤ c ∧ c ≤ 'z') ∨ ('A' ≤ c ∧ c ≤ 'Z') ∨ ('0' ≤ c ∧ c ≤ '9')

/-- Model of `searchTerm.replace(/[^a-zA-Z0-9]/g, '_')` (source line 532):
the term slug used in the export file name. -/
def docxTermSlug : Str → Str
  | [] => []
  | c :: rest => (if isAlnumChar c then c else '_') :: docxTermSlug rest

/-- Specification-side initial choice, written from the spec's ordered
rules: choose (c) if its count is above 5 and below 80 percent of (a)'s;
else (a) if (a)'s count is above (b)'s and above 3; else (b) if its count
is above 3; else (d) if its count is above (b)'s; else default to (a). -/
def specInitIdx (aN bN cN dN : Nat) : Nat :=
  if 5 < cN ∧ 5 * cN < 4 * aN then 2
  else if bN < aN ∧ 3 < aN then 0
  else if 3 < bN then 1
  else if bN < dN then 3
  else 0

/-- Specification-side safety overrides (with the second override's
comparison in the strict form the code uses: (a) must have more than double
the chosen count). -/
def specOverrides (aN bN cN dN normLen i0 : Nat) : Nat :=
  let k0 := countAt aN bN cN dN i0
  let i1 :=
    if 500 < k0 ∧ 0 < bN ∧ 5 * bN < k0 then 1
    else if 500 < k0 ∧ 0 < cN ∧ 3 * cN < k0 then 2
    else i0
  let k1 := countAt aN bN cN dN i1
  if k1 < 5 ∧ 1000 < normLen ∧ k1 * 2 < aN then 0 else i1

/-- Specification-side full choice: ordered rules then the two overrides. -/
def specFinalIdx (aN bN cN dN normLen : Nat) : Nat :=
  specOverrides aN bN cN dN normLen (specInitIdx aN bN cN dN)

/-- The claim's version of the overrides as literally stated: the second
override fires when (a) has AT LEAST double the chosen paragraph count. -/
def claimOverrides (aN bN cN dN normLen i0 : Nat) : Nat :=
  let k0 := countAt aN bN cN dN i0
  let i1 :=
    if 500 < k0 ∧ 0 < bN ∧ 5 * bN < k0 then 1
    else if 500 < k0 ∧ 0 < cN ∧ 3 * cN < k0 then 2
    else i0
  let k1 := countAt aN bN cN dN i1
  if k1 < 5 ∧ 1000 < normLen ∧ k1 * 2 ≤ aN then 0 else i1

/-- A 23-character line. -/
def line23 : Str := "abcdefghijklmnopqrstuvw".data

/-- A 35-character line. -/
def line35 : Str := "abcdefghijklmnopqrstuvwxyz123456789".data

/-- The concrete document of the claim's segmentation example: 1500
characters, one double line break, sixty further single line breaks. -/
def doc1500 : Str :=
  line35 ++ '\n' :: '\n' :: List.intercalate ['\n'] (List.replicate 61 line23)

/-- The concrete document refuting the claim's "at least double" override:
501 blocks separated by newline-space-newline runs (blank-separated blocks
but no double newline), two blocks of three characters, the rest of one. -/
def cexDoc : Str :=
  List.intercalate ['\n', ' ', '\n']
    ("abc".data :: "abd".data :: List.replicate 499 "a".data)

/-- Specification-side transliteration of the claim's restructuring rule
for a found paragraph: when the paragraph holds a pipe and splits into at
least three pieces, keep piece 0 and exactly the later (trimmed) pieces
that case-insensitively contain the trimmed term, joined by one space;
otherwise pass the paragraph through unchanged. -/
def processFoundParagraphSpec (p term : Str) : Str :=
  if strIncludes ['|'] p ∧ 3 ≤ (splitOnSub ['|'] p).length then
    match (splitOnSub ['|'] p).map jsTrim with
    | [] => p
    | s0 :: rest =>
      joinSp (s0 :: rest.filter
        (fun s => strIncludes (toLowerStr (jsTrim term)) (toLowerStr s)))
  else p

/-- Whether a character is outside every markdown delimiter alphabet of
`splitByMarkdown` (asterisk, backtick, tilde). -/
def mdDelimFree (c : Char) : Bool := ¬ (c = '*' ∨ c = btk ∨ c = '~')

/-- Whether a string is free of ECMAScript pattern syntax characters. -/
def noRegexMeta (s : Str) : Bool := s.all (fun c => !isRegexMeta c)

/-- The expected sequence labels for `n` consecutive paragraphs after `c`
earlier ones: labels `c+1` through `c+n`. -/
def seqLabelsFrom : Nat → Nat → List Str
  | _, 0 => []
  | c, n + 1 => seqLabel (c + 1) :: seqLabelsFrom (c + 1) n

/-- The concrete failing input of the unescaped-regex throw: one selected
file whose single paragraph contains the searched character `(`. -/
def c2File : FileData :=
  ⟨"f1".data, "doc.md".data, "see ( here and more".data, 19, "text/plain".data⟩

theorem lenGo_eq {α : Type} (l : List α) : ∀ n, lenGo n l = n + l.length := by
  induction l with
  | nil => intro n; simp [lenGo]
  | cons x rest ih =>
    intro n
    match n with
    | 0 => simp [lenGo, ih 1]; omega
    | m + 1 => simp [lenGo, ih (m + 2)]; omega

theorem lenT_eq {α : Type} (l : List α) : lenT l = l.length := by
  simp [lenT, lenGo_eq]

theorem hasAtLeast_eq {α : Type} : ∀ (n : Nat) (l : List α),
    hasAtLeast n l = decide (n ≤ l.length)
  | 0, _ => by simp [hasAtLeast]
  | _ + 1, [] => by simp [hasAtLeast]
  | n + 1, _ :: rest => by simp [hasAtLeast, hasAtLeast_eq n rest]

theorem filterGo_eq {α : Type} (p : α → Bool) (l : List α) : ∀ acc,
    filterGo p acc l = acc.reverse ++ l.filter p := by
  induction l with
  | nil => intro acc; simp [filterGo]
  | cons x rest ih =>
    intro acc
    by_cases h : p x <;> simp [filterGo, h, ih]

theorem filterT_eq {α : Type} (p : α → Bool) (l : List α) :
    filterT p l = l.filter p := by
  simp [filterT, filterGo_eq]

theorem firstOverride_eq (k0 bN cN i0 : Nat) :
    (if 500 < k0 then
      if 0 < bN ∧ 5 * bN < k0 then 1
      else if 0 < cN ∧ 3 * cN < k0 then 2
      else i0
     else i0)
    = (if 500 < k0 ∧ 0 < bN ∧ 5 * bN < k0 then 1
       else if 500 < k0 ∧ 0 < cN ∧ 3 * cN < k0 then 2
       else i0) := by
  split_ifs <;> first | rfl | tauto

theorem secondOverride_eq (k1 aN n i1 : Nat) :
    (if k1 < 5 ∧ 1000 < n then if k1 * 2 < aN then 0 else i1 else i1)
    = (if k1 < 5 ∧ 1000 < n ∧ k1 * 2 < aN then 0 else i1) := by
  split_ifs <;> first | rfl | tauto

theorem overrides_eq_spec (aN bN cN dN n i0 : Nat) :
    codeOverrides aN bN cN dN n i0 = specOverrides aN bN cN dN n i0 := by
  simp only [codeOverrides, specOverrides, firstOverride_eq, secondOverride_eq]

theorem chooseFinal_eq_spec (aN bN cN dN n : Nat) :
    chooseFinalIdx aN bN cN dN n = specFinalIdx aN bN cN dN n := by
  simp only [chooseFinalIdx, specFinalIdx]
  rw [overrides_eq_spec]
  rfl

/-- C3: the initial strategy choice of `splitTextIntoParagraphs` follows the
spec's ordered rules exactly ((c) when above 5 and below 80 percent of (a);
else (a) when above (b) and above 3; else (b) when above 3; else (d) when
above (b); else (a)); and on a concrete 1500-character document with one
double line break and sixty further single line breaks (63 newline-split
pieces, 2 double-newline-split pieces) the chosen strategy is single-line-
break splitting (index 0). -/
theorem c3_strategy_selection :
    (∀ aN bN cN dN : Nat, chooseInitIdx aN bN cN dN = specInitIdx aN bN cN dN) ∧
    (splitTextIntoParagraphs doc1500).chosenIdx = 0 ∧
    doc1500.length = 1500 ∧
    (splitOnSub ['\n', '\n'] doc1500).length = 2 ∧
    (splitOnSub ['\n'] doc1500).length = 63 := by
  refine ⟨fun _ _ _ _ => rfl, by decide, ?_, ?_, ?_⟩
  · rw [← lenT_eq]; decide
  · rw [← lenT_eq]; decide
  · rw [← lenT_eq]; decide

/-- C4 (amended): after the initial choice, `splitTextIntoParagraphs`
applies exactly the two safety overrides, with the second override firing
only when candidate (a) has strictly more than double the chosen paragraph
count (the claim's "at least double" is corrected to "more than double"). -/
theorem c4_overrides_amended (text : Str) :
    (splitTextIntoParagraphs text).chosenIdx
      = specFinalIdx (methodA (normalizeNewlines text)).length
          (methodB (normalizeNewlines text)).length
          (methodC (normalizeNewlines text)).length
          (methodD (normalizeNewlines text)).length
          (normalizeNewlines text).length := by
  simp only [splitTextIntoParagraphs, lenT_eq]
  rw [chooseFinal_eq_spec]

/-- C4 counterexample: on `cexDoc` the candidate counts are a = 2, b = 1,
c = 0, d = 501 with normalized length 2005; the initial choice is (d), the
first override switches to (b) with count 1, and candidate (a) has exactly
double that count — the claim's "at least double" rule would switch to (a)
(index 0), but the code keeps (b) (index 1). -/
theorem c4_overrides_cex :
    (splitTextIntoParagraphs cexDoc).chosenIdx = 1 ∧
    claimOverrides 2 1 0 501 2005 (chooseInitIdx 2 1 0 501) = 0 ∧
    chooseInitIdx 2 1 0 501 = 3 ∧
    (methodA (normalizeNewlines cexDoc)).length = 2 ∧
    (methodB (normalizeNewlines cexDoc)).length = 1 ∧
    (methodC (normalizeNewlines cexDoc)).length = 0 ∧
    (methodD (normalizeNewlines cexDoc)).length = 501 ∧
    (normalizeNewlines cexDoc).length = 2005 := by
  refine ⟨by decide, by decide, by decide, ?_, ?_, ?_, ?_, ?_⟩
  · rw [← lenT_eq]; decide
  · rw [← lenT_eq]; decide
  · rw [← lenT_eq]; decide
  · rw [← lenT_eq]; decide
  · rw [← lenT_eq]; decide

/-- C2 (code bug): `searchInFiles` builds `new RegExp(processedTerm, 'g')`
from the unescaped term, so the term `"("` (an unterminated group) throws as
soon as a selected file has a matching paragraph, contradicting the spec's
escaping requirement; the escaped construction in the highlighter accepts
the same term. -/
theorem c2_unescaped_regex_throws :
    searchInFiles [c2File] ["f1".data] ['('] = .error () ∧
    jsPatternValid ['('] = false ∧
    noRegexMeta "see here".data = true ∧
    searchInFiles [c2File] ["f1".data] "see".data
      = .ok [⟨"doc.md".data, ["see ( here and more".data], 1, 1⟩] := by
  refine ⟨by decide, by decide, by decide, by decide⟩

/-- C5: the restructuring of a found paragraph is exactly the spec's rule —
with an inline pipe and at least three pieces, keep the base piece and the
later pieces containing the term, space-joined; otherwise unchanged — and
the claim's concrete example restructures as stated. -/
theorem c5_pipe_restructuring :
    (∀ p term : Str, processFoundParagraph p term = processFoundParagraphSpec p term) ∧
    processFoundParagraph
        "Intro text | mentions abc here | unrelated clause | another abc mention".data
        "abc".data
      = "Intro text mentions abc here another abc mention".data := by
  exact ⟨fun _ _ => rfl, by decide⟩

/-- C9 (amended): the export file name's term slug replaces every character
outside `[A-Za-z0-9]` with an underscore (the claim's "strips" is corrected
to "replaces with `_`"); in particular the slug always has the term's
length. -/
theorem c9_slug_amended (term : Str) :
    docxTermSlug term = term.map (fun c => if isAlnumChar c then c else '_') ∧
    (docxTermSlug term).length = term.length := by
  induction term with
  | nil => exact ⟨rfl, rfl⟩
  | cons c rest ih =>
    refine ⟨?_, ?_⟩
    · simp only [docxTermSlug, List.map, ih.1]
    · simp only [docxTermSlug, List.length, ih.2]

/-- C9 counterexample: for the term `"a b"` the code's slug is `"a_b"`,
not the claim's stripped `"ab"`. -/
theorem c9_slug_cex :
    docxTermSlug "a b".data = "a_b".data ∧
    "a b".data.filter isAlnumChar = "ab".data ∧
    docxTermSlug "a b".data ≠ "a b".data.filter isAlnumChar := by
  refine ⟨by decide, by decide, by decide⟩

theorem childSeqLabels_append (a b : List DocxChild) :
    childSeqLabels (a ++ b) = childSeqLabels a ++ childSeqLabels b := by
  induction a with
  | nil => rfl
  | cons x rest ih =>
    cases x with
    | plain t => simpa [childSeqLabels] using ih
    | runs rs => cases rs <;> simp [childSeqLabels, ih]

theorem childHeadsBold_append (a b : List DocxChild) :
    childHeadsBold (a ++ b) = (childHeadsBold a && childHeadsBold b) := by
  induction a with
  | nil => rfl
  | cons x rest ih =>
    cases x with
    | plain t => simpa [childHeadsBold] using ih
    | runs rs => cases rs <;> simp [childHeadsBold, ih, Bool.and_assoc]

theorem parasChildren_labels (term : Str) (ps : List Str) : ∀ c,
    childSeqLabels (parasChildren term c ps) = seqLabelsFrom c ps.length := by
  induction ps with
  | nil => intro c; rfl
  | cons p rest ih =>
    intro c
    simp [parasChildren, paraChild, childSeqLabels, seqLabelsFrom, ih (c + 1)]

theorem parasChildren_bold (term : Str) (ps : List Str) : ∀ c,
    childHeadsBold (parasChildren term c ps) = true := by
  induction ps with
  | nil => intro c; rfl
  | cons p rest ih =>
    intro c
    simp [parasChildren, paraChild, childHeadsBold, ih (c + 1)]

theorem seqLabelsFrom_add (m : Nat) : ∀ (n c : Nat),
    seqLabelsFrom c (n + m) = seqLabelsFrom c n ++ seqLabelsFrom (c + n) m := by
  intro n
  induction n with
  | zero => intro c; simp [seqLabelsFrom]
  | succ n ih =>
    intro c
    have h1 : n + 1 + m = (n + m) + 1 := by omega
    rw [h1]
    simp only [seqLabelsFrom, ih (c + 1), List.cons_append]
    have h2 : c + 1 + n = c + (n + 1) := by omega
    rw [h2]

theorem resultsChildren_labels (term : Str) (results : List SearchResult) : ∀ c,
    childSeqLabels (resultsChildren term c results)
      = seqLabelsFrom c (totalParas results) := by
  induction results with
  | nil => intro c; rfl
  | cons r rest ih =>
    intro c
    simp only [resultsChildren, childSeqLabels, childSeqLabels_append,
      parasChildren_labels, ih (c + r.foundParagraphs.length)]
    have : totalParas (r :: rest) = r.foundParagraphs.length + totalParas rest := by
      simp [totalParas]
    rw [this, seqLabelsFrom_add]

theorem resultsChildren_bold (term : Str) (results : List SearchResult) : ∀ c,
    childHeadsBold (resultsChildren term c results) = true := by
  induction results with
  | nil => intro c; rfl
  | cons r rest ih =>
    intro c
    simp [resultsChildren, childHeadsBold, childHeadsBold_append,
      parasChildren_bold, ih (c + r.foundParagraphs.length)]

/-- C7: during export every found paragraph — iterated in result order,
then paragraph order — receives the next value of one global counter
starting at 1 (the sequence of first-run texts of the runs paragraphs is
exactly the label sequence 1..N, never resetting per document), each label
is attached as a leading bold run before the paragraph's highlighted
segment runs, labels are zero-padded to two digits and preserved past 99,
and the claim's 2-plus-1 document example yields labels 01., 02., 03. . -/
theorem c7_export_numbering :
    (∀ (results : List SearchResult) (term dateStr : Str),
      childSeqLabels (exportChildren results term dateStr)
        = seqLabelsFrom 0 (totalParas results) ∧
      childHeadsBold (exportChildren results term dateStr) = true) ∧
    (∀ (c : Nat) (p term : Str),
      paraChild c p term
        = .runs (⟨seqLabel c, true, false, false, false, false⟩
            :: (getFormattedTextSegments p term).map segToRun)) ∧
    seqLabel 1 = "01. ".data ∧ seqLabel 9 = "09. ".data ∧
    seqLabel 100 = "100. ".data ∧
    childSeqLabels (exportChildren
        [⟨"A".data, ["p one".data, "p two".data], 2, 3⟩,
         ⟨"B".data, ["p three".data], 1, 1⟩] ['p'] "2026-02-03".data)
      = ["01. ".data, "02. ".data, "03. ".data] := by
  refine ⟨?_, fun _ _ _ => rfl, by decide, by decide, by decide, by decide⟩
  intro results term dateStr
  constructor
  · simp [exportChildren, childSeqLabels, childSeqLabels_append,
      resultsChildren_labels]
  · simp [exportChildren, childHeadsBold, childHeadsBold_append,
      resultsChildren_bold]

theorem catList_append (a b : List Str) :
    catList (a ++ b) = catList a ++ catList b := by
  induction a with
  | nil => rfl
  | cons s rest ih => simp [catList, ih]

theorem catTexts_append (a b : List ParsedMarkdownSegment) :
    catTexts (a ++ b) = catTexts a ++ catTexts b := by
  simp [catTexts, catList_append]

theorem catList_filter_nonempty (l : List Str) :
    catList (l.filter (fun p => ¬ p.isEmpty)) = catList l := by
  induction l with
  | nil => rfl
  | cons s rest ih =>
    cases s with
    | nil =>
      simp only [List.filter_cons, catList] at ih ⊢
      simp at ih ⊢
      simpa using ih
    | cons c cs =>
      simp only [List.filter_cons, catList] at ih ⊢
      simp at ih ⊢
      simp [catList, ih]

theorem catTexts_map_withText (seg : ParsedMarkdownSegment) (f : Str → Bool)
    (parts : List Str) :
    catTexts (parts.map
        (fun part => { seg with text := part, isHighlighted := f part }))
      = catList parts := by
  induction parts with
  | nil => rfl
  | cons p rest ih => simp [catTexts, catList, List.map] at ih ⊢; simp [ih]

theorem splitKeepFuel_cat (term : Str) : ∀ (fuel : Nat) (gap cs : Str),
    catList (splitKeepFuel term fuel gap cs) = gap.reverse ++ cs := by
  intro fuel
  induction fuel with
  | zero => intro gap cs; simp [splitKeepFuel, catList]
  | succ fuel ih =>
    intro gap cs
    cases cs with
    | nil => simp [splitKeepFuel, catList]
    | cons c rest =>
      by_cases h : term.isPrefixOf (toLowerStr (c :: rest))
      · simp only [splitKeepFuel, if_pos h, catList, ih]
        simp [List.take_append_drop]
      · simp only [splitKeepFuel, if_neg h, ih]
        simp

theorem applyHLGo_cat (pt : Str) (segs : List ParsedMarkdownSegment) :
    catTexts (applyHLGo pt segs) = catTexts segs := by
  induction segs with
  | nil => rfl
  | cons seg rest ih =>
    by_cases h : strIncludes pt (toLowerStr seg.text)
    · simp only [applyHLGo, if_pos h, catTexts_append, ih]
      rw [catTexts_map_withText, catList_filter_nonempty]
      simp [splitKeepTermCI, splitKeepFuel_cat, catTexts, catList]
    · simp only [applyHLGo, if_neg h, catTexts_append, ih]
      simp [catTexts, catList]

theorem applyHighlight_cat (segs : List ParsedMarkdownSegment) (term : Str) :
    catTexts (applyHighlightToSegments segs term) = catTexts segs := by
  by_cases h : (jsTrim term).isEmpty
  · simp [applyHighlightToSegments, h]
  · simp [applyHighlightToSegments, h, applyHLGo_cat]

theorem mdBoldAt_none (c : Char) (rest : Str) (h : ¬ (c = '*')) :
    mdBoldAt (c :: rest) = none := by
  cases rest with
  | nil => rfl
  | cons c2 rest2 => simp [mdBoldAt, h]

theorem mdItalAt_none (c : Char) (rest : Str) (h : ¬ (c = '*')) :
    mdItalAt (c :: rest) = none := by
  simp [mdItalAt, h]

theorem mdCodeAt_none (c : Char) (rest : Str) (h : ¬ (c = btk)) :
    mdCodeAt (c :: rest) = none := by
  simp [mdCodeAt, h]

theorem mdStrikeAt_none (c : Char) (rest : Str) (h : ¬ (c = '~')) :
    mdStrikeAt (c :: rest) = none := by
  cases rest with
  | nil => rfl
  | cons c2 rest2 => simp [mdStrikeAt, h]

theorem matchMarkdownAt_none_of_free (c : Char) (rest : Str)
    (h : mdDelimFree c = true) : matchMarkdownAt (c :: rest) = none := by
  have h' : ¬ (c = '*' ∨ c = btk ∨ c = '~') := by
    simpa [mdDelimFree] using h
  have h1 : ¬ (c = '*') := fun hc => h' (Or.inl hc)
  have h2 : ¬ (c = btk) := fun hc => h' (Or.inr (Or.inl hc))
  have h3 : ¬ (c = '~') := fun hc => h' (Or.inr (Or.inr hc))
  simp [matchMarkdownAt, mdBoldAt_none c rest h1, mdItalAt_none c rest h1,
    mdCodeAt_none c rest h2, mdStrikeAt_none c rest h3]

theorem scanMD_cat_of_free : ∀ (fuel : Nat) (acc cs : Str),
    cs.all mdDelimFree = true →
    catTexts (scanMDFuel fuel acc cs) = acc.reverse ++ cs := by
  intro fuel
  induction fuel with
  | zero => intro acc cs _; simp [scanMDFuel, catTexts, catList, plainSeg]
  | succ fuel ih =>
    intro acc cs hfree
    cases cs with
    | nil =>
      by_cases h : acc.isEmpty
      · have : acc = [] := by simpa [List.isEmpty_iff] using h
        simp [scanMDFuel, this, catTexts, catList]
      · simp [scanMDFuel, h, catTexts, catList, plainSeg]
    | cons c rest =>
      simp only [List.all_cons, Bool.and_eq_true] at hfree
      rw [scanMDFuel, matchMarkdownAt_none_of_free c rest hfree.1]
      rw [ih (c :: acc) rest hfree.2]
      simp

/-- C1 (amended): for every paragraph text and term, concatenating the text
fields of the highlighted spans reproduces the concatenation of
`splitByMarkdown`'s span texts — i.e. the paragraph text with the markdown
delimiter markers of recognized matches removed — exactly; in particular,
when the paragraph contains no markdown delimiter characters at all, the
concatenation reproduces the paragraph text exactly. -/
theorem c1_span_concat (text term : Str) :
    catTexts (getFormattedTextSegments text term)
      = catTexts (splitByMarkdown text) ∧
    (text.all mdDelimFree = true → catTexts (splitByMarkdown text) = text) := by
  constructor
  · exact applyHighlight_cat (splitByMarkdown text) term
  · intro hfree
    rw [splitByMarkdown, scanMD_cat_of_free (text.length + 1) [] text hfree]
    rfl

/-- C1 witness: a concrete delimiter-free paragraph whose highlighted spans
concatenate back to the paragraph exactly. -/
theorem c1_span_concat_witness :
    "hello world".data.all mdDelimFree = true ∧
    catTexts (splitByMarkdown "hello world".data) = "hello world".data ∧
    catTexts (getFormattedTextSegments "hello world".data ['o'])
      = catTexts (splitByMarkdown "hello world".data) :=
  ⟨by decide, (c1_span_concat "hello world".data ['o']).2 (by decide),
   (c1_span_concat "hello world".data ['o']).1⟩

/-- C1 counterexample: for the paragraph `**a**` the concatenated span text
is `a`, not the paragraph text — the recognized bold markers are stripped,
so exact reproduction fails. -/
theorem c1_exact_reproduction_cex :
    catTexts (getFormattedTextSegments "**a**".data "zz".data) = ['a'] ∧
    catTexts (getFormattedTextSegments "**a**".data "zz".data) ≠ "**a**".data := by
  exact ⟨by decide, by decide⟩

theorem findClose2_len (d : Char) : ∀ (cs content after : Str),
    findClose2 d cs = some (content, after) →
    content.length + 2 + after.length = cs.length := by
  intro cs
  induction cs with
  | nil => intro content after h; simp [findClose2] at h
  | cons c1 tail ih =>
    intro content after h
    cases tail with
    | nil => simp [findClose2] at h
    | cons c2 rest =>
      rw [findClose2] at h
      by_cases h1 : c1 = d ∧ c2 = d
      · rw [if_pos h1] at h
        injection h with h'
        injection h' with hc ha
        subst hc; subst ha
        simp; omega
      · rw [if_neg h1] at h
        by_cases h2 : notLineTerm c1
        · rw [if_pos h2] at h
          cases h3 : findClose2 d (c2 :: rest) with
          | none => rw [h3] at h; exact absurd h (by simp)
          | some p =>
            rw [h3] at h
            obtain ⟨content', after'⟩ := p
            injection h with h'
            injection h' with hc ha
            subst hc; subst ha
            have := ih content' after' h3
            simp at this ⊢
            omega
        · rw [if_neg h2] at h
          exact absurd h (by simp)

theorem findClose1_len (d : Char) : ∀ (cs content after : Str),
    findClose1 d cs = some (content, after) →
    content.length + 1 + after.length = cs.length := by
  intro cs
  induction cs with
  | nil => intro content after h; simp [findClose1] at h
  | cons c tail ih =>
    intro content after h
    rw [findClose1] at h
    by_cases h1 : c = d
    · rw [if_pos h1] at h
      injection h with h'
      injection h' with hc ha
      subst hc; subst ha
      simp; omega
    · rw [if_neg h1] at h
      by_cases h2 : notLineTerm c
      · rw [if_pos h2] at h
        cases h3 : findClose1 d tail with
        | none => rw [h3] at h; exact absurd h (by simp)
        | some p =>
          rw [h3] at h
          obtain ⟨content', after'⟩ := p
          injection h with h'
          injection h' with hc ha
          subst hc; subst ha
          have := ih content' after' h3
          simp at this ⊢
          omega
      · rw [if_neg h2] at h
        exact absurd h (by simp)

theorem orElse_eq_some {α : Type} (x y : Option α) (v : α)
    (h : (x <|> y) = some v) : x = some v ∨ (x = none ∧ y = some v) := by
  cases x with
  | none => right; exact ⟨rfl, by simpa using h⟩
  | some a => left; simpa using h

theorem mdBoldAt_len (cs m after : Str) (h : mdBoldAt cs = some (m, after)) :
    m.length + after.length = cs.length ∧ 2 ≤ m.length := by
  match cs with
  | [] => simp [mdBoldAt] at h
  | [c] => simp [mdBoldAt] at h
  | c1 :: c2 :: rest2 =>
    rw [mdBoldAt] at h
    by_cases hc : c1 = '*' ∧ c2 = '*'
    · rw [if_pos hc] at h
      rw [Option.map_eq_some'] at h
      obtain ⟨⟨content, after'⟩, hfc, hmk⟩ := h
      injection hmk with hm ha
      subst hm; subst ha
      have := findClose2_len '*' rest2 content after' hfc
      simp at this ⊢
      omega
    · rw [if_neg hc] at h; simp at h

theorem mdItalAt_len (cs m after : Str) (h : mdItalAt cs = some (m, after)) :
    m.length + after.length = cs.length ∧ 2 ≤ m.length := by
  match cs with
  | [] => simp [mdItalAt] at h
  | c :: rest =>
    rw [mdItalAt] at h
    by_cases hc : c = '*'
    · rw [if_pos hc] at h
      rw [Option.map_eq_some'] at h
      obtain ⟨⟨content, after'⟩, hfc, hmk⟩ := h
      injection hmk with hm ha
      subst hm; subst ha
      have := findClose1_len '*' rest content after' hfc
      simp at this ⊢
      omega
    · rw [if_neg hc] at h; simp at h

theorem mdCodeAt_len (cs m after : Str) (h : mdCodeAt cs = some (m, after)) :
    m.length + after.length = cs.length ∧ 2 ≤ m.length := by
  match cs with
  | [] => simp [mdCodeAt] at h
  | c :: rest =>
    rw [mdCodeAt] at h
    by_cases hc : c = btk
    · rw [if_pos hc] at h
      rw [Option.map_eq_some'] at h
      obtain ⟨⟨content, after'⟩, hfc, hmk⟩ := h
      injection hmk with hm ha
      subst hm; subst ha
      have := findClose1_len btk rest content after' hfc
      simp at this ⊢
      omega
    · rw [if_neg hc] at h; simp at h

theorem mdStrikeAt_len (cs m after : Str) (h : mdStrikeAt cs = some (m, after)) :
    m.length + after.length = cs.length ∧ 2 ≤ m.length := by
  match cs with
  | [] => simp [mdStrikeAt] at h
  | [c] => simp [mdStrikeAt] at h
  | c1 :: c2 :: rest2 =>
    rw [mdStrikeAt] at h
    by_cases hc : c1 = '~' ∧ c2 = '~'
    · rw [if_pos hc] at h
      rw [Option.map_eq_some'] at h
      obtain ⟨⟨content, after'⟩, hfc, hmk⟩ := h
      injection hmk with hm ha
      subst hm; subst ha
      have := findClose2_len '~' rest2 content after' hfc
      simp at this ⊢
      omega
    · rw [if_neg hc] at h; simp at h

theorem matchMarkdownAt_len (cs m after : Str)
    (h : matchMarkdownAt cs = some (m, after)) :
    m.length + after.length = cs.length ∧ 2 ≤ m.length := by
  rw [matchMarkdownAt] at h
  rcases orElse_eq_some _ _ _ h with h1 | ⟨_, h1⟩
  · exact mdBoldAt_len cs m after h1
  rcases orElse_eq_some _ _ _ h1 with h2 | ⟨_, h2⟩
  · exact mdItalAt_len cs m after h2
  rcases orElse_eq_some _ _ _ h2 with h3 | ⟨_, h3⟩
  · exact mdCodeAt_len cs m after h3
  · exact mdStrikeAt_len cs m after h3

theorem classifySegment_text_le (m : Str) :
    (classifySegment m).text.length ≤ m.length := by
  rw [classifySegment]
  split_ifs <;> simp

theorem catTexts_consPlain (t : Str) (l : List ParsedMarkdownSegment) :
    catTexts (consPlain t l) = t ++ catTexts l := by
  rw [consPlain]
  by_cases h : t.isEmpty
  · have : t = [] := List.isEmpty_iff.mp h
    simp [this]
  · simp [h, catTexts, catList, plainSeg]

theorem scanMD_len : ∀ (fuel : Nat) (acc cs : Str),
    (catTexts (scanMDFuel fuel acc cs)).length + strippedFuel fuel cs
      = acc.length + cs.length := by
  intro fuel
  induction fuel with
  | zero =>
    intro acc cs
    simp [scanMDFuel, strippedFuel, catTexts, catList, plainSeg]
  | succ fuel ih =>
    intro acc cs
    cases cs with
    | nil =>
      by_cases h : acc.isEmpty
      · have : acc = [] := List.isEmpty_iff.mp h
        simp [scanMDFuel, strippedFuel, this, h, catTexts, catList]
      · simp [scanMDFuel, strippedFuel, h, catTexts, catList, plainSeg]
    | cons c rest =>
      rw [scanMDFuel, strippedFuel]
      cases hm : matchMarkdownAt (c :: rest) with
      | none =>
        have := ih (c :: acc) rest
        simp at this ⊢
        omega
      | some p =>
        obtain ⟨m, after⟩ := p
        rw [catTexts_consPlain]
        have hlen := matchMarkdownAt_len (c :: rest) m after hm
        have hcls := classifySegment_text_le m
        have hih := ih [] after
        simp only [catTexts, catList, List.map] at hih ⊢
        simp at hih hlen ⊢
        omega

/-- C8: `splitByMarkdown` is a total function (it never throws), and for
every input the total length of all emitted span texts equals the input
length minus the delimiter markers stripped from recognized matched pairs;
a dangling single delimiter is kept as literal plain text. -/
theorem c8_md_split_length :
    (∀ s : Str,
      (catTexts (splitByMarkdown s)).length + strippedLen s = s.length) ∧
    splitByMarkdown "a*b".data = [plainSeg "a*b".data] ∧
    strippedLen "a*b".data = 0 ∧
    strippedLen "a **b** c".data = 4 := by
  refine ⟨?_, by decide, by decide, by decide⟩
  intro s
  have := scanMD_len (s.length + 1) [] s
  simpa [splitByMarkdown, strippedLen] using this

theorem applyHLGo_highlighted (pt : Str) :
    ∀ (segs : List ParsedMarkdownSegment),
    (∀ s ∈ segs, s.isHighlighted = false) →
    ∀ s ∈ applyHLGo pt segs, s.isHighlighted = true → toLowerStr s.text = pt := by
  intro segs
  induction segs with
  | nil => intro _ s hs; simp [applyHLGo] at hs
  | cons seg rest ih =>
    intro hin s hs hhl
    rw [applyHLGo] at hs
    rcases List.mem_append.mp hs with hmem | hmem
    · by_cases h : strIncludes pt (toLowerStr seg.text)
      · rw [if_pos h] at hmem
        obtain ⟨part, _, rfl⟩ := List.mem_map.mp hmem
        simp only at hhl
        simpa using eq_of_beq hhl
      · rw [if_neg h] at hmem
        have hseg : s = seg := by simpa using hmem
        subst hseg
        exact absurd hhl (by simp [hin s (by simp)])
    · exact ih (fun t ht => hin t (List.mem_cons_of_mem seg ht)) s hmem hhl

theorem applyHLGo_append (pt : Str) (a b : List ParsedMarkdownSegment) :
    applyHLGo pt (a ++ b) = applyHLGo pt a ++ applyHLGo pt b := by
  induction a with
  | nil => rfl
  | cons seg rest ih => simp [applyHLGo, ih]

/-- C10: for every styled-span sequence none of whose spans is already
marked, and every term with non-blank trim, every span that
`applyHighlightToSegments` marks as highlighted lowercases exactly to the
processed term; and highlighting distributes over concatenation of span
sequences — it is decided within each input span in isolation, so an
occurrence of the term split across the boundary of two adjacent spans is
never marked (the concrete boundary case `ab`/`c` with term `abc` passes
through unhighlighted). -/
theorem c10_highlight_isolated :
    (∀ (segs : List ParsedMarkdownSegment) (term : Str),
      (jsTrim term).isEmpty = false →
      (∀ s ∈ segs, s.isHighlighted = false) →
      ∀ s ∈ applyHighlightToSegments segs term,
        s.isHighlighted = true → toLowerStr s.text = toLowerStr (jsTrim term)) ∧
    (∀ (a b : List ParsedMarkdownSegment) (term : Str),
      applyHighlightToSegments (a ++ b) term
        = applyHighlightToSegments a term ++ applyHighlightToSegments b term) ∧
    applyHighlightToSegments [plainSeg "ab".data, plainSeg ['c']] "abc".data
      = [plainSeg "ab".data, plainSeg ['c']] := by
  refine ⟨?_, ?_, by decide⟩
  · intro segs term hterm hin s hs hhl
    rw [applyHighlightToSegments, if_neg (by simp [hterm])] at hs
    exact applyHLGo_highlighted (toLowerStr (jsTrim term)) segs hin s hs hhl
  · intro a b term
    rw [applyHighlightToSegments, applyHighlightToSegments, applyHighlightToSegments]
    by_cases h : (jsTrim term).isEmpty
    · simp [h]
    · simp [h, applyHLGo_append]

/-- C10 witness: the theorem applied to one concrete plain span containing
the term `abc`, with both hypotheses discharged concretely. -/
theorem c10_highlight_isolated_witness :
    (jsTrim "abc".data).isEmpty = false ∧
    (∀ s ∈ [plainSeg "xabcx".data], s.isHighlighted = false) ∧
    (∀ s ∈ applyHighlightToSegments [plainSeg "xabcx".data] "abc".data,
      s.isHighlighted = true → toLowerStr s.text = toLowerStr (jsTrim "abc".data)) :=
  ⟨by decide, by decide,
   c10_highlight_isolated.1 [plainSeg "xabcx".data] "abc".data
     (by decide) (by decide)⟩

theorem patScan_of_noMeta : ∀ (p : Str) (fuel d : Nat) (h : Bool),
    noRegexMeta p = true → p.length ≤ fuel →
    patScan fuel false p d h = decide (d = 0) := by
  intro p
  induction p with
  | nil =>
    intro fuel d h _ _
    cases fuel with
    | zero => rfl
    | succ fuel => rfl
  | cons c rest ih =>
    intro fuel d h hm hlen
    cases fuel with
    | zero => simp at hlen
    | succ fuel =>
      have hm2 : isRegexMeta c = false ∧ noRegexMeta rest = true := by
        simpa only [noRegexMeta, List.all_cons, Bool.and_eq_true,
          Bool.not_eq_true'] using hm
      have hmc := hm2.1
      have hnc : ∀ x : Char, isRegexMeta x = true → ¬ c = x := by
        intro x hx hcx
        rw [hcx, hx] at hmc
        exact absurd hmc (by decide)
      have h1 : ¬ c = '\\' := hnc '\\' (by decide)
      have h2 : ¬ c = '(' := hnc '(' (by decide)
      have h3 : ¬ c = ')' := hnc ')' (by decide)
      have h4 : ¬ c = '[' := hnc '[' (by decide)
      have h5 : ¬ c = '|' := hnc '|' (by decide)
      have h6 : ¬ (c = '*' ∨ c = '+' ∨ c = '?') := by
        rintro (hc | hc | hc)
        · exact hnc '*' (by decide) hc
        · exact hnc '+' (by decide) hc
        · exact hnc '?' (by decide) hc
      simp only [patScan, if_neg h1, if_neg h2, if_neg h3, if_neg h4,
        if_neg h5, if_neg h6]
      exact ih fuel d true hm2.2 (by simpa using Nat.le_of_succ_le_succ hlen)

theorem jsPatternValid_of_noMeta (p : Str) (hm : noRegexMeta p = true) :
    jsPatternValid p = true := by
  rw [jsPatternValid, patScan_of_noMeta p p.length 0 true hm (Nat.le_refl _)]
  decide

theorem patMatchesAt_eq_isPrefixOf : ∀ (pat t : Str),
    pat.all (fun c => !(c = '.')) = true →
    patMatchesAt pat t = pat.isPrefixOf t := by
  intro pat
  induction pat with
  | nil => intro t _; cases t <;> rfl
  | cons p ps ih =>
    intro t hd
    have hd2 : ¬ p = '.' ∧ ps.all (fun c => !(c = '.')) = true := by
      simpa only [List.all_cons, Bool.and_eq_true, Bool.not_eq_true',
        decide_eq_false_iff_not] using hd
    cases t with
    | nil => rfl
    | cons c cs =>
      rw [patMatchesAt, patCharMatches, if_neg hd2.1, ih cs hd2.2]
      by_cases hpc : p = c <;> simp [List.isPrefixOf, hpc]

theorem countPat_eq_countOcc (pat : Str)
    (hd : pat.all (fun c => !(c = '.')) = true) : ∀ (fuel : Nat) (t : Str),
    countPatFuel pat fuel t = countOccFuel pat fuel t := by
  intro fuel
  induction fuel with
  | zero => intro t; rfl
  | succ fuel ih =>
    intro t
    cases t with
    | nil => rfl
    | cons c cs =>
      rw [countPatFuel, countOccFuel, patMatchesAt_eq_isPrefixOf pat (c :: cs) hd]
      by_cases h : pat.isPrefixOf (c :: cs)
      · rw [if_pos h, if_pos h, ih]
      · rw [if_neg h, if_neg h, ih]

theorem jsMatchCountG_literal (pt t : Str) (hm : noRegexMeta pt = true)
    (hne : pt ≠ []) : jsMatchCountG pt t = .ok (countOcc pt t) := by
  have hd : pt.all (fun c => !(c = '.')) = true := by
    rw [List.all_eq_true]
    intro x hx
    have hx2 := (List.all_eq_true.mp hm) x hx
    simp only [Bool.not_eq_true'] at hx2
    simp only [Bool.not_eq_true', decide_eq_false_iff_not]
    intro hdot
    rw [hdot] at hx2
    exact absurd hx2 (by decide)
  rw [jsMatchCountG, if_pos (jsPatternValid_of_noMeta pt hm)]
  rw [if_neg (by simpa [List.isEmpty_iff] using hne)]
  rw [countPat_eq_countOcc pt hd]
  rfl

theorem fileSearch_literal (pt st : Str) (hm : noRegexMeta pt = true)
    (hne : pt ≠ []) : ∀ ps : List Str,
    fileSearch pt st ps = .ok
      ((ps.filter (fun p => strIncludes pt (toLowerStr p))).map
          (fun p => processFoundParagraph p st),
       ((ps.filter (fun p => strIncludes pt (toLowerStr p))).map
          (fun p => countOcc pt (toLowerStr p))).sum) := by
  intro ps
  induction ps with
  | nil => rfl
  | cons p rest ih =>
    by_cases h : strIncludes pt (toLowerStr p)
    · rw [fileSearch, if_pos h, jsMatchCountG_literal pt (toLowerStr p) hm hne, ih]
      simp [List.filter_cons, h]
    · rw [fileSearch, if_neg h, ih]
      simp [List.filter_cons, h]

/-- C6 (amended): when the trimmed lowercased term contains no regular-
expression metacharacters, the occurrence count a file contributes to its
`SearchResult` is the sum, over exactly the matched (pre-restructuring)
paragraphs, of the non-overlapping case-insensitive occurrence counts of
the term in the original paragraph text — unaffected by restructuring; for
term `abc` in paragraph `abcabc` the count is 2. -/
theorem c6_occurrence_count :
    (∀ (pt st : Str) (ps : List Str), noRegexMeta pt = true → pt ≠ [] →
      fileSearch pt st ps = .ok
        ((ps.filter (fun p => strIncludes pt (toLowerStr p))).map
            (fun p => processFoundParagraph p st),
         ((ps.filter (fun p => strIncludes pt (toLowerStr p))).map
            (fun p => countOcc pt (toLowerStr p))).sum)) ∧
    searchInFiles [⟨"f1".data, "doc.md".data, "abcabc".data, 6, "t".data⟩]
        ["f1".data] "abc".data
      = .ok [⟨"doc.md".data, ["abcabc".data], 1, 2⟩] ∧
    countOcc "abc".data (toLowerStr "abcabc".data) = 2 := by
  refine ⟨fun pt st ps hm hne => fileSearch_literal pt st hm hne ps,
    by decide, by decide⟩

/-- C6 witness: the per-file loop applied to the paragraph list `[abcabc]`
with term `abc`, hypotheses discharged concretely. -/
theorem c6_occurrence_count_witness :
    noRegexMeta "abc".data = true ∧ "abc".data ≠ [] ∧
    fileSearch "abc".data "abc".data ["abcabc".data]
      = .ok (["abcabc".data], 2) :=
  ⟨by decide, by decide, by
    rw [c6_occurrence_count.1 "abc".data "abc".data ["abcabc".data]
      (by decide) (by decide)]
    decide⟩

/-- C6 counterexample: with the metacharacter term `.` the code's count on
paragraph `a.b` is 3 (the unescaped dot matches every character), while the
non-overlapping occurrence count of the literal term is 1. -/
theorem c6_occurrence_count_cex :
    searchInFiles [⟨"f1".data, "doc.md".data, "a.b".data, 3, "t".data⟩]
        ["f1".data] ['.']
      = .ok [⟨"doc.md".data, ["a.b".data], 1, 3⟩] ∧
    countOcc ['.'] (toLowerStr "a.b".data) = 1 ∧ (3 : Nat) ≠ 1 := by
  refine ⟨by decide, by decide, by decide⟩
